import Mathlib

/-!
Verification of the go-async combinator library.

The repository has two layers:
* `pipeline`: channel combinators (`Generate`, `ToChan`, `Range`, `Map`,
  `Limit`, `Collector`, `Accumulate`, `Merge`, `Tee`, `Split`, `Spread`).
* `async`: a future/promise layer (`Exec`, `ExecWithDefer`, `Then`,
  `ThenWithDefer`, `Future.Await`) built on `pipeline.Generate`.

The embedding below is sequential and deterministic.  Channels carrying data
are modelled as Lean lists (a finite sequence of delivered values); the
unbounded producer loops of the Go code are modelled with an explicit fuel
argument together with adequacy lemmas showing the fuel chosen by the
embedding suffices.  `Except.error` models a Go `panic`.  For the future
layer, the one-shot cleanup-handoff channels of `ExecWithDefer` are modelled
with an explicit store of channel states, and cleanup actions (Go `func()`
values) are modelled syntactically so that their execution trace on a log of
sentinel markers can be observed.
-/

namespace GoAsync

/-- Go `error` values are treated as opaque tokens; `Option Err` is a Go
`error` (with `none` for `nil`). -/
abbrev Err := String

/-- The main loop of `pipeline.Generate` (part_000 / source.go), without
cancellation: repeatedly call `next` on the loop state, delivering the value
while `ok` is true, stopping at the first `ok = false`.  `fuel` bounds the
number of `next` calls; every use below supplies provably sufficient fuel. -/
def genRun {σ α : Type} (next : σ → α × Bool × σ) : Nat → σ → List α
  | 0, _ => []
  | fuel + 1, s =>
    match next s with
    | (v, true, s2) => v :: genRun next fuel s2
    | (_, false, _) => []

/-! ## Range (src/pipeline/source.go, lines 48-93)

`Range(ctx, from, to, optStep...)` picks a default step of `1` (or `-1` when
`from > to`), lets an explicit `optStep[0]` override it, validates the sign
of the step against the direction (panicking on mismatch), and otherwise
generates the progression with the stepping closure
`i := from; from += step; return i, i < to` (ascending), resp. `i > to`
(descending).  `from == to` short-circuits to `ToChan(ctx, from)`. -/

/-- The ascending stepping closure of `Range`: state is the captured `from`
variable; it returns the emitted value, the `more` flag `i < to`, and the
updated state `from + step`. -/
def rangeNextAsc (tgt step : Int) (i : Int) : Int × Bool × Int :=
  (i, decide (i < tgt), i + step)

/-- The descending stepping closure of `Range` (`more` flag is `i > to`). -/
def rangeNextDesc (tgt step : Int) (i : Int) : Int × Bool × Int :=
  (i, decide (tgt < i), i + step)

/-- `pipeline.Range` over `Int`, transliterated from src/pipeline/source.go.
The optional variadic step is a list (Go `optStep ...T`); `Except.error`
models the `panic` calls.  The fuel `(to-from).toNat + 1` (resp. the mirror
for descending) dominates the number of `next` calls whenever the step sign
was validated, as proved in `genRun_asc_eq` / `genRun_desc_eq`. -/
def rangeGo (lo hi : Int) (optStep : List Int) : Except String (List Int) :=
  let step : Int := if lo > hi then -1 else 1
  let step : Int := match optStep with | [] => step | s :: _ => s
  if lo < hi then
    if step ≤ 0 then Except.error "step must be greater than 0"
    else Except.ok (genRun (rangeNextAsc hi step) ((hi - lo).toNat + 1) lo)
  else if lo > hi then
    if step ≥ 0 then Except.error "step must be less than 0"
    else Except.ok (genRun (rangeNextDesc hi step) ((lo - hi).toNat + 1) lo)
  else Except.ok [lo]

/-- Spec-side definition (follows the spec's words, to be compared with the
code): the ascending arithmetic progression starting at `lo`, with step `s`,
exclusive of the bound `hi`. -/
def arithAsc (lo hi s : Int) : List Int :=
  if _h : 0 < s ∧ lo < hi then lo :: arithAsc (lo + s) hi s else []
termination_by (hi - lo).toNat
decreasing_by
  simp_wf
  omega

/-- Spec-side definition: the descending arithmetic progression starting at
`lo`, with (negative) step `s`, exclusive of the bound `hi`. -/
def arithDesc (lo hi s : Int) : List Int :=
  if _h : s < 0 ∧ hi < lo then lo :: arithDesc (lo + s) hi s else []
termination_by (lo - hi).toNat
decreasing_by
  simp_wf
  omega

lemma genRun_asc_eq (tgt s : Int) (hs : 0 < s) :
    ∀ (fuel : Nat) (lo : Int), (tgt - lo).toNat < fuel →
      genRun (rangeNextAsc tgt s) fuel lo = arithAsc lo tgt s := by
  intro fuel
  induction fuel with
  | zero => intro lo h; omega
  | succ n ih =>
    intro lo h
    rw [arithAsc]
    by_cases hlt : lo < tgt
    · have hrec : (tgt - (lo + s)).toNat < n := by omega
      have hd : decide (lo < tgt) = true := by simpa using hlt
      simp only [genRun, rangeNextAsc, hd]
      rw [dif_pos ⟨hs, hlt⟩, ih (lo + s) hrec]
    · have hd : decide (lo < tgt) = false := by simpa using hlt
      simp only [genRun, rangeNextAsc, hd]
      rw [dif_neg (by tauto)]

lemma genRun_desc_eq (tgt s : Int) (hs : s < 0) :
    ∀ (fuel : Nat) (lo : Int), (lo - tgt).toNat < fuel →
      genRun (rangeNextDesc tgt s) fuel lo = arithDesc lo tgt s := by
  intro fuel
  induction fuel with
  | zero => intro lo h; omega
  | succ n ih =>
    intro lo h
    rw [arithDesc]
    by_cases hlt : tgt < lo
    · have hrec : (lo + s - tgt).toNat < n := by omega
      have hd : decide (tgt < lo) = true := by simpa using hlt
      simp only [genRun, rangeNextDesc, hd]
      rw [dif_pos ⟨hs, hlt⟩, ih (lo + s) hrec]
    · have hd : decide (tgt < lo) = false := by simpa using hlt
      simp only [genRun, rangeNextDesc, hd]
      rw [dif_neg (by tauto)]

/-- C6: Without cancellation, `Range(from, to)` and `Range(from, to, step)`
yield exactly the arithmetic progression from `from` with the given step
(default `+1` ascending, `-1` descending), exclusive of the bound `to`, in
order, then close; `Range(10,99)` yields `10,...,98`; `Range(99,10)` yields
`99,...,11`; and `Range(x,x)` yields the single value `x`. -/
theorem range_yields_progression :
    (∀ lo hi s : Int, lo < hi → 0 < s →
        rangeGo lo hi [s] = Except.ok (arithAsc lo hi s))
  ∧ (∀ lo hi : Int, lo < hi →
        rangeGo lo hi [] = Except.ok (arithAsc lo hi 1))
  ∧ (∀ lo hi s : Int, hi < lo → s < 0 →
        rangeGo lo hi [s] = Except.ok (arithDesc lo hi s))
  ∧ (∀ lo hi : Int, hi < lo →
        rangeGo lo hi [] = Except.ok (arithDesc lo hi (-1)))
  ∧ (∀ x : Int, rangeGo x x [] = Except.ok [x])
  ∧ rangeGo 10 99 [] = Except.ok ((List.range 89).map (fun k => 10 + (k : Int)))
  ∧ rangeGo 99 10 [] = Except.ok ((List.range 89).map (fun k => 99 - (k : Int)))
  ∧ rangeGo 10 10 [] = Except.ok [10] := by
  refine ⟨?_, ?_, ?_, ?_, ?_, ?_, ?_, ?_⟩
  · intro lo hi s hlt hs
    simp only [rangeGo, if_pos hlt, if_neg (by omega : ¬ s ≤ 0)]
    rw [genRun_asc_eq hi s hs _ lo (by omega)]
  · intro lo hi hlt
    simp only [rangeGo, if_pos hlt, if_neg (by omega : ¬ lo > hi)]
    norm_num
    rw [genRun_asc_eq hi 1 (by omega) _ lo (by omega)]
  · intro lo hi s hlt hs
    simp only [rangeGo, if_neg (by omega : ¬ lo < hi), if_pos (by omega : lo > hi),
      if_neg (by omega : ¬ s ≥ 0)]
    rw [genRun_desc_eq hi s hs _ lo (by omega)]
  · intro lo hi hlt
    simp only [rangeGo, if_neg (by omega : ¬ lo < hi), if_pos (by omega : lo > hi)]
    norm_num
    rw [genRun_desc_eq hi (-1) (by omega) _ lo (by omega)]
  · intro x
    simp [rangeGo]
  · rfl
  · rfl
  · rfl

/-- Witness for `range_yields_progression`: concrete instances with their
hypotheses discharged. -/
theorem range_yields_progression_witness :
    ((10 : Int) < 99 ∧ (0 : Int) < 5 ∧
      rangeGo 10 99 [5] = Except.ok (arithAsc 10 99 5))
  ∧ ((10 : Int) < 99 ∧
      rangeGo 99 10 [-5] = Except.ok (arithDesc 99 10 (-5))) :=
  ⟨⟨by decide, by decide, range_yields_progression.1 10 99 5 (by decide) (by decide)⟩,
   ⟨by decide,
    range_yields_progression.2.2.1 99 10 (-5) (by decide) (by decide)⟩⟩

/-- C7: `Range` fails fatally (panics) whenever `from ≠ to` and the supplied
step's sign does not match the direction: for `from < to` a step `≤ 0`
panics, and for `from > to` a step `≥ 0` panics. -/
theorem range_panics_on_step_sign_mismatch :
    (∀ lo hi s : Int, lo < hi → s ≤ 0 →
        rangeGo lo hi [s] = Except.error "step must be greater than 0")
  ∧ (∀ lo hi s : Int, hi < lo → 0 ≤ s →
        rangeGo lo hi [s] = Except.error "step must be less than 0") := by
  constructor
  · intro lo hi s hlt hs
    simp only [rangeGo, if_pos hlt, if_pos hs]
  · intro lo hi s hlt hs
    simp only [rangeGo, if_neg (by omega : ¬ lo < hi), if_pos (by omega : lo > hi),
      if_pos (by omega : s ≥ 0)]

/-- Witness for `range_panics_on_step_sign_mismatch`: `Range(10,99,-5)` and
`Range(10,-99,5)` both fail fatally. -/
theorem range_panics_on_step_sign_mismatch_witness :
    ((10 : Int) < 99 ∧ (-5 : Int) ≤ 0 ∧
      rangeGo 10 99 [-5] = Except.error "step must be greater than 0")
  ∧ ((-99 : Int) < 10 ∧ (0 : Int) ≤ 5 ∧
      rangeGo 10 (-99) [5] = Except.error "step must be less than 0") :=
  ⟨⟨by decide, by decide,
    range_panics_on_step_sign_mismatch.1 10 99 (-5) (by decide) (by decide)⟩,
   ⟨by decide, by decide,
    range_panics_on_step_sign_mismatch.2 10 (-99) 5 (by decide) (by decide)⟩⟩

/-! ## Collector with a fixed-size batch rule (C8)

`pipeline.Collector` (current pipeline.go; same loop in part_003 lines
602-626) repeatedly invokes the caller-supplied rule
`collect(ctx, in) -> (aggregate, ok)` and forwards each aggregate while `ok`
is true, then closes.  With no cancellation the `OrDone` gate on the input is
the identity, and the delivery race never aborts.  The fixed-size batch rule
is the repository's own `sliceCollector` (pipeline tests): pull up to `k`
values, return the partial batch with `ok = len(r) > 0` on exhaustion. -/

/-- The fixed-size batch rule of the repository's tests: read up to `k`
values from the input (modelled as the list of values the channel will
deliver before closing); returns the aggregate, the `ok` flag
`len(r) > 0`, and the rest of the input. -/
def collectFixed {α : Type} : Nat → List α → List α → (List α × Bool) × List α
  | 0, r, rest => ((r, !r.isEmpty), rest)
  | _ + 1, r, [] => ((r, !r.isEmpty), [])
  | k + 1, r, v :: rest => collectFixed k (r ++ [v]) rest

/-- The Collector loop's `next` function for the fixed-size rule: invoke the
rule on the remaining input. -/
def collectorNext {α : Type} (k : Nat) (input : List α) :
    List α × Bool × List α :=
  let ((v, ok), rest) := collectFixed k [] input
  (v, ok, rest)

/-- `Collector` applied to the fixed-size batch rule of size `k`, over a
finite input and no cancellation.  The loop runs at most `length + 1`
iterations (each `ok` aggregate consumes at least one item when `k > 0`),
so that fuel is sufficient, as `collectorGo_eq_chunks` proves. -/
def CollectorGo {α : Type} (k : Nat) (input : List α) : List (List α) :=
  genRun (collectorNext k) (input.length + 1) input

/-- Spec-side definition (follows the spec's words): the list of consecutive
size-`k` chunks of `l`, the last one possibly shorter. -/
def chunksSpec {α : Type} (k : Nat) : List α → List (List α)
  | [] => []
  | a :: l =>
    if k = 0 then [] else (a :: l).take k :: chunksSpec k ((a :: l).drop k)
termination_by l => l.length
decreasing_by
  simp only [List.length_drop, List.length_cons]
  omega

lemma chunksSpec_nil {α : Type} (k : Nat) : chunksSpec k ([] : List α) = [] := by
  rw [chunksSpec]

lemma chunksSpec_cons {α : Type} (k : Nat) (hk : 0 < k) (a : α) (l : List α) :
    chunksSpec k (a :: l) = (a :: l).take k :: chunksSpec k ((a :: l).drop k) := by
  rw [chunksSpec, if_neg (by omega)]

lemma collectFixed_eq {α : Type} :
    ∀ (k : Nat) (acc l : List α),
      collectFixed k acc l =
        ((acc ++ l.take k, !(acc ++ l.take k).isEmpty), l.drop k) := by
  intro k
  induction k with
  | zero => intro acc l; simp [collectFixed]
  | succ n ih =>
    intro acc l
    cases l with
    | nil => simp [collectFixed]
    | cons v rest =>
      simp only [collectFixed, ih (acc ++ [v]) rest, List.take_succ_cons,
        List.drop_succ_cons, List.append_assoc, List.singleton_append]

lemma collectorGo_eq_chunks_aux {α : Type} (k : Nat) (hk : 0 < k) :
    ∀ (fuel : Nat) (l : List α), l.length < fuel →
      genRun (collectorNext k) fuel l = chunksSpec k l := by
  intro fuel
  induction fuel with
  | zero => intro l h; omega
  | succ n ih =>
    intro l h
    cases l with
    | nil =>
      rw [chunksSpec_nil]
      simp [genRun, collectorNext, collectFixed_eq]
    | cons v rest =>
      rw [chunksSpec_cons k hk]
      have htake : ((v :: rest).take k).isEmpty = false := by
        cases k with
        | zero => omega
        | succ m => simp [List.take_succ_cons]
      simp only [genRun, collectorNext, collectFixed_eq, List.nil_append,
        htake, Bool.not_false]
      have hrec : ((v :: rest).drop k).length < n := by
        simp only [List.length_drop, List.length_cons]
        simp only [List.length_cons] at h
        omega
      rw [ih _ hrec]

lemma chunksSpec_ne_nil {α : Type} (k : Nat) (hk : 0 < k) (l : List α)
    (hl : l ≠ []) : chunksSpec k l ≠ [] := by
  cases l with
  | nil => exact absurd rfl hl
  | cons a rest => rw [chunksSpec_cons k hk]; simp

lemma chunksSpec_length {α : Type} (k : Nat) (hk : 0 < k) :
    ∀ (n : Nat) (l : List α), l.length ≤ n →
      (chunksSpec k l).length = (l.length + k - 1) / k := by
  intro n
  induction n with
  | zero =>
    intro l hl
    have hnil : l = [] := by cases l <;> simp_all
    subst hnil
    rw [chunksSpec_nil]
    simp only [List.length_nil, Nat.zero_add]
    rw [Nat.div_eq_of_lt (by omega)]
  | succ n ih =>
    intro l hl
    rcases l with _ | ⟨a, rest⟩
    · rw [chunksSpec_nil]
      simp only [List.length_nil, Nat.zero_add]
      rw [Nat.div_eq_of_lt (by omega)]
    · rw [chunksSpec_cons k hk]
      have hlen : ((a :: rest).drop k).length ≤ n := by
        simp only [List.length_drop, List.length_cons] at *
        omega
      rw [List.length_cons, ih _ hlen, List.length_drop]
      set L := (a :: rest).length with hL
      have hL1 : 1 ≤ L := by simp [hL]
      rcases le_or_lt L k with hle | hgt
      · have h1 : L - k = 0 := by omega
        have h2 : L + k - 1 = (L - 1) + k := by omega
        rw [h1, h2, Nat.add_div_right _ hk, Nat.div_eq_of_lt (by omega),
          Nat.div_eq_of_lt (by omega)]
      · have h2 : L + k - 1 = (L - 1) + k := by omega
        have h3 : L - 1 = (L - k - 1) + k := by omega
        have h4 : L - k + k - 1 = (L - k - 1) + k := by omega
        rw [h2, Nat.add_div_right _ hk, h3, Nat.add_div_right _ hk, h4,
          Nat.add_div_right _ hk]

lemma chunksSpec_dropLast {α : Type} (k : Nat) (hk : 0 < k) :
    ∀ (n : Nat) (l : List α), l.length ≤ n →
      ∀ c ∈ (chunksSpec k l).dropLast, c.length = k := by
  intro n
  induction n with
  | zero =>
    intro l hl
    have hnil : l = [] := by cases l <;> simp_all
    subst hnil
    rw [chunksSpec_nil]
    simp
  | succ n ih =>
    intro l hl
    rcases l with _ | ⟨a, rest⟩
    · rw [chunksSpec_nil]
      simp
    · rw [chunksSpec_cons k hk]
      by_cases hrest : (a :: rest).drop k = []
      · rw [hrest, chunksSpec_nil]
        simp
      · have hlen : ((a :: rest).drop k).length ≤ n := by
          simp only [List.length_drop, List.length_cons] at *
          omega
        have hklen : k < (a :: rest).length := by
          by_contra hcon
          exact hrest (List.drop_eq_nil_of_le (by omega))
        rcases hc : chunksSpec k ((a :: rest).drop k) with _ | ⟨c2, cs2⟩
        · exact absurd hc (chunksSpec_ne_nil k hk _ hrest)
        · intro c hmem
          simp only [List.dropLast_cons₂] at hmem
          rcases List.mem_cons.mp hmem with rfl | hmem2
          · rw [List.length_take]
            omega
          · have hres := ih _ hlen c
            rw [hc] at hres
            exact hres hmem2

lemma chunksSpec_getLast {α : Type} (k : Nat) (hk : 0 < k) :
    ∀ (n : Nat) (l : List α), l.length ≤ n → l.length % k ≠ 0 →
      (((chunksSpec k l).getLast?.getD []) : List α).length = l.length % k := by
  intro n
  induction n with
  | zero =>
    intro l hl hmod
    have hnil : l = [] := by cases l <;> simp_all
    subst hnil
    simp at hmod
  | succ n ih =>
    intro l hl hmod
    rcases l with _ | ⟨a, rest⟩
    · simp at hmod
    · rw [chunksSpec_cons k hk]
      by_cases hrest : (a :: rest).drop k = []
      · rw [hrest, chunksSpec_nil]
        have hle : (a :: rest).length ≤ k := by
          have := List.drop_eq_nil_iff.mp hrest
          omega
        have hlt : (a :: rest).length < k := by
          rcases Nat.lt_or_ge (a :: rest).length k with hx | hx
          · exact hx
          · have heq : (a :: rest).length = k := le_antisymm hle hx
            rw [heq] at hmod
            simp at hmod
        rw [List.getLast?_singleton, Option.getD_some, List.length_take,
          Nat.mod_eq_of_lt hlt]
        omega
      · have hklen : k < (a :: rest).length := by
          by_contra hcon
          exact hrest (List.drop_eq_nil_of_le (by omega))
        have hmodeq :
            (a :: rest).length % k = ((a :: rest).drop k).length % k := by
          rw [List.length_drop]
          conv_lhs =>
            rw [show (a :: rest).length = ((a :: rest).length - k) + k by omega]
          rw [Nat.add_mod_right]
        have hmod2 : ((a :: rest).drop k).length % k ≠ 0 := by
          rw [← hmodeq]
          exact hmod
        have hlen : ((a :: rest).drop k).length ≤ n := by
          simp only [List.length_drop, List.length_cons] at *
          omega
        have hrecur := ih _ hlen hmod2
        rw [hmodeq, ← hrecur]
        rcases hc : chunksSpec k ((a :: rest).drop k) with _ | ⟨c2, cs2⟩
        · exact absurd hc (chunksSpec_ne_nil k hk _ hrest)
        · rw [List.getLast?_cons_cons]

/-- C8: for a fixed-size batch rule of size `k > 0` applied by `Collector`
to a finite input of length `L` with no cancellation, the output is exactly
the list of consecutive `k`-chunks: `ceil(L/k)` aggregates, each of size `k`
except possibly the last, whose size is `L mod k` when that is nonzero; the
output then closes. -/
theorem collector_batching_law {α : Type} (k : Nat) (hk : 0 < k)
    (input : List α) :
    CollectorGo k input = chunksSpec k input
  ∧ (chunksSpec k input).length = (input.length + k - 1) / k
  ∧ (∀ c ∈ (chunksSpec k input).dropLast, c.length = k)
  ∧ (input.length % k ≠ 0 →
      (((chunksSpec k input).getLast?.getD []) : List α).length = input.length % k) :=
  ⟨collectorGo_eq_chunks_aux k hk _ input (Nat.lt_succ_self _),
   chunksSpec_length k hk input.length input le_rfl,
   chunksSpec_dropLast k hk input.length input le_rfl,
   chunksSpec_getLast k hk input.length input le_rfl⟩

/-- Witness for `collector_batching_law`: size-3 batches over a 7-element
input give chunks `[1,2,3], [4,5,6], [7]`. -/
theorem collector_batching_law_witness :
    0 < 3 ∧
    (CollectorGo 3 [1, 2, 3, 4, 5, 6, 7] = chunksSpec 3 [1, 2, 3, 4, 5, 6, 7]
  ∧ (chunksSpec 3 ([1, 2, 3, 4, 5, 6, 7] : List Nat)).length
      = (([1, 2, 3, 4, 5, 6, 7] : List Nat).length + 3 - 1) / 3
  ∧ (∀ c ∈ (chunksSpec 3 ([1, 2, 3, 4, 5, 6, 7] : List Nat)).dropLast,
        c.length = 3)
  ∧ (([1, 2, 3, 4, 5, 6, 7] : List Nat).length % 3 ≠ 0 →
      (((chunksSpec 3 ([1, 2, 3, 4, 5, 6, 7] : List Nat)).getLast?.getD []) : List Nat).length
        = ([1, 2, 3, 4, 5, 6, 7] : List Nat).length % 3)) :=
  ⟨by decide, collector_batching_law 3 (by decide) [1, 2, 3, 4, 5, 6, 7]⟩

/-! ## Accumulate (C5)

`pipeline.Accumulate` (current pipeline.go; part_003 lines 589-600 is the
same code with the trailing check factored into `ErrorIfDone`):

    out = initVal
    for v := range OrDone(ctx, input) {
        if out, err = fn(out, v); err != nil { return out, err }
    }
    select { case <-ctx.Done(): err = ctx.Err(); default: }
    return out, err

Note that on the error path Go's multiple assignment has already replaced
`out` with the accumulator returned by the failing `fn` call before
returning.  The input list is the sequence of values the `OrDone` gate
delivers; `ctxDone`/`ctxErr` model the state of the cancellation token at
the trailing check. -/

/-- The fold loop of `Accumulate`.  Returns the result pair and the input
remaining unconsumed after the loop exits (to state the short-circuit
property). -/
def accLoop {T V : Type} (fn : V → T → V × Option Err) :
    V → List T → (V × Option Err) × List T
  | acc, [] => ((acc, none), [])
  | acc, v :: rest =>
    match fn acc v with
    | (acc2, some e) => ((acc2, some e), rest)
    | (acc2, none) => accLoop fn acc2 rest

/-- `pipeline.Accumulate`, with the trailing cancellation check. -/
def accumulateGo {T V : Type} (ctxDone : Bool) (ctxErr : Err)
    (fn : V → T → V × Option Err) (initVal : V) (input : List T) :
    V × Option Err :=
  match (accLoop fn initVal input).1 with
  | (out, some e) => (out, some e)
  | (out, none) => (out, if ctxDone then some ctxErr else none)

/-- The error-ignoring left fold of the accumulators returned by `fn`
(meaningful on an error-free prefix). -/
def foldSteps {T V : Type} (fn : V → T → V × Option Err) : V → List T → V
  | acc, [] => acc
  | acc, v :: rest => foldSteps fn (fn acc v).1 rest

/-- Whether every step of the fold over `l` returns a `nil` error. -/
def stepsErrFree {T V : Type} (fn : V → T → V × Option Err) :
    V → List T → Bool
  | _, [] => true
  | acc, v :: rest =>
    match fn acc v with
    | (acc2, none) => stepsErrFree fn acc2 rest
    | (_, some _) => false

lemma accLoop_no_error {T V : Type} (fn : V → T → V × Option Err) :
    ∀ (l : List T) (acc : V), stepsErrFree fn acc l = true →
      accLoop fn acc l = ((foldSteps fn acc l, none), []) := by
  intro l
  induction l with
  | nil => intro acc _; rfl
  | cons v rest ih =>
    intro acc hfree
    rcases hv : fn acc v with ⟨acc2, oe⟩
    cases oe with
    | none =>
      have hfree2 : stepsErrFree fn acc2 rest = true := by
        rw [stepsErrFree, hv] at hfree
        exact hfree
      simp only [accLoop, hv, foldSteps, ih acc2 hfree2]
    | some e =>
      rw [stepsErrFree, hv] at hfree
      simp at hfree

lemma accLoop_first_error {T V : Type} (fn : V → T → V × Option Err) :
    ∀ (pre : List T) (acc : V) (v : T) (post : List T) (e : Err),
      stepsErrFree fn acc pre = true →
      (fn (foldSteps fn acc pre) v).2 = some e →
      accLoop fn acc (pre ++ v :: post)
        = (((fn (foldSteps fn acc pre) v).1, some e), post) := by
  intro pre
  induction pre with
  | nil =>
    intro acc v post e _ herr
    rcases hv : fn acc v with ⟨acc2, oe⟩
    rw [foldSteps, hv] at herr
    simp only [List.nil_append, accLoop, hv]
    simp only at herr
    subst herr
    simp [foldSteps, hv]
  | cons p ps ih =>
    intro acc v post e hfree herr
    rcases hp : fn acc p with ⟨acc2, oe⟩
    cases oe with
    | none =>
      have hfree2 : stepsErrFree fn acc2 ps = true := by
        rw [stepsErrFree, hp] at hfree
        exact hfree
      have hfold : foldSteps fn acc (p :: ps) = foldSteps fn acc2 ps := by
        simp [foldSteps, hp]
      rw [hfold] at herr
      simp only [List.cons_append, accLoop, hp]
      rw [hfold]
      simp only [List.append_eq]
      exact ih acc2 v post e hfree2 herr
    | some e2 =>
      rw [stepsErrFree, hp] at hfree
      simp at hfree

/-- Counterexample to C5 as stated: with the fold function that adds items
and fails at item `3` returning accumulator `0`, `Accumulate` over
`[1,2,3,4]` returns accumulator `0`, not the fold `3 = 0+1+2` of the items
strictly before the failing one. -/
def cexFn (acc v : Int) : Int × Option Err :=
  if v = 3 then (0, some "boom") else (acc + v, none)

/-- C5 counterexample: `Accumulate` returns the accumulator produced by the
failing `fn` call (here `0`), which differs from the fold of the items
strictly before the failing one (here `3`): the claim's description of the
returned accumulator is false on the code. -/
theorem accumulate_cex :
    accumulateGo false "ctxerr" cexFn 0 [1, 2, 3, 4] = (0, some "boom")
  ∧ foldSteps cexFn 0 [1, 2] = 3
  ∧ ((0 : Int) ≠ 3) := by
  refine ⟨by decide, by decide, by decide⟩

/-- C5 (amended): `Accumulate` folds left-to-right; at the first erroring
step it returns immediately with that error and the accumulator value
returned by the failing `fn` call, consuming no further input; if no step
errors, it returns the fold of the whole input together with the
cancellation token's error when the token has fired and no error
otherwise. -/
theorem accumulate_short_circuit :
    (∀ (T V : Type) (fn : V → T → V × Option Err) (init : V)
        (pre post : List T) (v : T) (e : Err) (d : Bool) (ce : Err),
      stepsErrFree fn init pre = true →
      (fn (foldSteps fn init pre) v).2 = some e →
        accumulateGo d ce fn init (pre ++ v :: post)
            = ((fn (foldSteps fn init pre) v).1, some e)
        ∧ (accLoop fn init (pre ++ v :: post)).2 = post)
  ∧ (∀ (T V : Type) (fn : V → T → V × Option Err) (init : V)
        (input : List T) (ce : Err),
      stepsErrFree fn init input = true →
        accumulateGo true ce fn init input
            = (foldSteps fn init input, some ce)
        ∧ accumulateGo false ce fn init input
            = (foldSteps fn init input, none)) := by
  constructor
  · intro T V fn init pre post v e d ce hfree herr
    have hloop := accLoop_first_error fn pre init v post e hfree herr
    constructor
    · simp [accumulateGo, hloop]
    · rw [hloop]
  · intro T V fn init input ce hfree
    have hloop := accLoop_no_error fn input init hfree
    constructor
    · simp [accumulateGo, hloop]
    · simp [accumulateGo, hloop]

/-- Witness for `accumulate_short_circuit` at the fold function `cexFn`,
input `[1,2] ++ 3 :: [4]`, and at an error-free run. -/
theorem accumulate_short_circuit_witness :
    (stepsErrFree cexFn 0 [1, 2] = true
      ∧ (cexFn (foldSteps cexFn 0 [1, 2]) 3).2 = some "boom"
      ∧ accumulateGo false "ctxerr" cexFn 0 ([1, 2] ++ 3 :: [4])
          = ((cexFn (foldSteps cexFn 0 [1, 2]) 3).1, some "boom")
      ∧ (accLoop cexFn 0 ([1, 2] ++ 3 :: [4])).2 = [4])
  ∧ (stepsErrFree cexFn 0 [1, 2] = true
      ∧ accumulateGo true "ctxerr" cexFn 0 [1, 2]
          = (foldSteps cexFn 0 [1, 2], some "ctxerr")) :=
  ⟨⟨by decide, by decide,
    (accumulate_short_circuit.1 Int Int cexFn 0 [1, 2] [4] 3 "boom" false
      "ctxerr" (by decide) (by decide)).1,
    (accumulate_short_circuit.1 Int Int cexFn 0 [1, 2] [4] 3 "boom" false
      "ctxerr" (by decide) (by decide)).2⟩,
   ⟨by decide,
    (accumulate_short_circuit.2 Int Int cexFn 0 [1, 2] "ctxerr"
      (by decide)).1⟩⟩

/-! ## Merge dispatch (C4)

`pipeline.Merge` (current pipeline.go, the variant the pipeline test suite
exercises: `Merge(s.Ctx)` must be nil and `Merge(s.Ctx, pipe)` must equal
`pipe`):

    switch len(chans) {
    case 0: return nil
    case 1: return chans[0]
    }
    c := make(chan T)
    ... one relay goroutine per input + one closing goroutine ...

The result is modelled as: the `nil` channel, the very input channel handle
itself (identity), or a fresh channel; paired with the number of tasks
(goroutines) spawned. -/

/-- The possible results of `Merge`: the nil channel, one of the input
channel handles unchanged, or a freshly created channel. -/
inductive MergeOut (χ : Type) where
  | nilChan : MergeOut χ
  | same (c : χ) : MergeOut χ
  | fresh : MergeOut χ
deriving DecidableEq

/-- `pipeline.Merge`'s dispatch on the number of input channels, returning
the result and the number of goroutines spawned (`len(chans)` relay tasks
plus one closing task in the general case). -/
def mergeGo {χ : Type} (chans : List χ) : MergeOut χ × Nat :=
  match chans with
  | [] => (MergeOut.nilChan, 0)
  | [c] => (MergeOut.same c, 0)
  | cs => (MergeOut.fresh, cs.length + 1)

/-- C4: `Merge` with zero inputs yields the absent (nil) channel, and
`Merge` with exactly one input returns that very channel unchanged, in both
cases spawning no task. -/
theorem merge_identity_cases {χ : Type} :
    mergeGo ([] : List χ) = (MergeOut.nilChan, 0)
  ∧ ∀ c : χ, mergeGo [c] = (MergeOut.same c, 0) :=
  ⟨rfl, fun _ => rfl⟩

/-! ## Delivery races against cancellation (C3)

The current `pipeline.Limit` forwards each item inside
`select { case <-ctx.Done(): return; case out <- v: i++ }` — a raced
delivery — while the relay of `pipeline.Merge` forwards with a bare
`out <- v`, with no `ctx.Done()` case at all (only its *input* is
cancellation-gated through `OrDone`).

The micro-model below runs one relay loop over the finite list of items its
cancellation-gated input delivered, against a round-based environment:
`ready r` says a receiver is at the rendezvous point in round `r`, `canc r`
says the token has fired by round `r`, and `pick r` resolves Go's
nondeterministic `select` choice when both cases are enabled.  A send that
is not enabled waits one round; `fuel` counts rounds, and `blocked` reports
that the loop was still waiting when the fuel ran out.  "Remains blocked
forever" is expressed as being `blocked` for every amount of fuel. -/

/-- Result of running a relay loop for a bounded number of rounds. -/
inductive RunRes where
  | finished : RunRes
  | blocked : RunRes
deriving DecidableEq

/-- The forwarding loop of `pipeline.Limit` (current pipeline.go): for each
item, race the delivery against the token (`select` over `ctx.Done()` and
`out <- v`), stop after `n` deliveries or when the token branch fires. -/
def limitBody {α : Type} (canc ready pick : Nat → Bool) (n : Nat) :
    List α → Nat → Nat → Nat → RunRes
  | [], _, _, _ => RunRes.finished
  | _ :: _, _, 0, _ => RunRes.blocked
  | v :: rest, i, fuel + 1, r =>
    if canc r then
      if ready r && pick r then
        if n ≤ i + 1 then RunRes.finished
        else limitBody canc ready pick n rest (i + 1) fuel (r + 1)
      else RunRes.finished
    else if ready r then
      if n ≤ i + 1 then RunRes.finished
      else limitBody canc ready pick n rest (i + 1) fuel (r + 1)
    else limitBody canc ready pick n (v :: rest) i fuel (r + 1)

/-- The relay loop of `pipeline.Merge` (`fanout`): `for v := range in
{ out <- v }`.  The bare send has no cancellation case: it only completes
when a receiver is ready, and otherwise waits, whatever the token does. -/
def fanoutBody {α : Type} (ready : Nat → Bool) :
    List α → Nat → Nat → RunRes
  | [], _, _ => RunRes.finished
  | _ :: _, 0, _ => RunRes.blocked
  | v :: rest, fuel + 1, r =>
    if ready r then fanoutBody ready rest fuel (r + 1)
    else fanoutBody ready (v :: rest) fuel (r + 1)

/-- A Merge relay that holds one undelivered item while no receiver ever
shows up again (the consumer stopped at cancellation) stays blocked no
matter how many rounds pass — the token, fired or not, never unblocks the
bare send. -/
def mergeRelayStuck : Prop :=
  ∀ (fuel r : Nat),
    fanoutBody (fun _ => false) [(0 : Nat)] fuel r = RunRes.blocked

/-- C3 counterexample: after cancellation (receiver gone for good), the
Merge relay with one in-flight item remains blocked forever: the claim that
no stage task remains blocked on a send once the token is cancelled is
false for `Merge`. -/
theorem merge_relay_blocks_forever : mergeRelayStuck := by
  intro fuel
  induction fuel with
  | zero => intro r; rfl
  | succ n ih =>
    intro r
    simp only [fanoutBody, Bool.false_eq_true, if_false]
    exact ih (r + 1)

/-- C3 (amended): `Limit` races cancellation on every forwarded item, so
once the token has fired its relay loop always terminates — for any receiver
behaviour, select choices, items, and bound — within `items.length + 1`
rounds; it is never blocked.  (`Merge`'s relay, by contrast, is not raced:
see `merge_relay_blocks_forever`.) -/
theorem limit_never_blocked_once_cancelled {α : Type}
    (canc ready pick : Nat → Bool) (hc : ∀ s, canc s = true) :
    ∀ (items : List α) (n i r fuel : Nat), items.length < fuel →
      limitBody canc ready pick n items i fuel r = RunRes.finished := by
  intro items
  induction items with
  | nil =>
    intro n i r fuel hf
    cases fuel with
    | zero => omega
    | succ m => rfl
  | cons v rest ih =>
    intro n i r fuel hf
    cases fuel with
    | zero => simp at hf
    | succ m =>
      have hfm : rest.length < m := by
        simp only [List.length_cons] at hf
        omega
      cases hre : ready r with
      | false => simp [limitBody, hc r, hre]
      | true =>
        cases hpi : pick r with
        | false => simp [limitBody, hc r, hre, hpi]
        | true =>
          by_cases hn : n ≤ i + 1
          · simp [limitBody, hc r, hre, hpi, hn]
          · have hrec := ih n (i + 1) (r + 1) m hfm
            simp [limitBody, hc r, hre, hpi, hn, hrec]

/-- Witness for `limit_never_blocked_once_cancelled`: token fired from the
start, receiver never ready, two pending items. -/
theorem limit_never_blocked_once_cancelled_witness :
    (∀ s, (fun _ : Nat => true) s = true)
  ∧ ([7, 8] : List Nat).length < 3
  ∧ limitBody (fun _ => true) (fun _ => false) (fun _ => false) 5 [7, 8] 0 3 0
      = RunRes.finished :=
  ⟨fun _ => rfl, by decide,
   limit_never_blocked_once_cancelled (fun _ => true) (fun _ => false)
     (fun _ => false) (fun _ => rfl) [7, 8] 5 0 0 3 (by decide)⟩

/-! ## The future layer (src/unnamed/part_001): C1, C2, C9, C10

`Future[T]` holds a result channel (backed by `pipeline.Generate`) and an
optional cleanup-handoff channel `deferFn`.  The model is sequential, with:

* a store `St` of one-shot channel states for the cleanup-handoff channels
  (`pending` = values whose senders are blocked at the rendezvous, in FIFO
  order; `closed` per Go channel semantics), plus a `log` of executed
  cleanup markers, a count of send operations attempted on defer channels,
  and flags recording a Go runtime panic or a receive that would block
  forever in the modelled scenarios;
* cleanup actions (`func()` values) represented syntactically by `CleanupA`
  so that running one is observable on the log; a channel payload is
  `Option CleanupA`, with `none` for Go's `nil` function (the zero value a
  receive on a closed channel yields);
* lazily-driven generators: receiving the `k`-th value from a future's
  result channel runs the `k`-th step of its `Generate` loop.  (In Go the
  steps run eagerly, one step ahead of the receives; the per-receive values,
  the number of `fn` invocations per step, and the sends on the cleanup
  channel are the same.)

The `ExecWithDefer` cleanup-sender goroutine is
`defer close(out); out <- fn`, so in the model a completed receive of a
pending send also closes the channel; a close with further senders still
blocked panics them, and a send on an already-closed channel panics, as in
Go.  Crucially, both `Exec` and `ExecWithDefer` declare `var executed bool`
and test `ok = !executed`, but no statement ever sets `executed = true`; the
model transliterates this faithfully. -/

/-- A Go `func()` cleanup value, represented syntactically: append a
sentinel marker to the log, do nothing, run two actions in sequence, or
receive an action from a cleanup channel and run it (the body of the
combined closure built by `ThenWithDefer`). -/
inductive CleanupA where
  | noop : CleanupA
  | mark (s : String) : CleanupA
  | seq (a b : CleanupA) : CleanupA
  | recvAndRun (cid : Nat) : CleanupA
deriving DecidableEq

/-- State of one cleanup-handoff channel. -/
structure ChanSt where
  pending : List (Option CleanupA)
  closed : Bool
deriving DecidableEq

/-- Global state: the cleanup log, the channel store, the number of send
operations attempted on cleanup channels, and the panic/blocked flags. -/
structure St where
  log : List String
  chans : List ChanSt
  sends : Nat
  panicked : Bool
  blocked : Bool
deriving DecidableEq

/-- The initial state. -/
def st0 : St := ⟨[], [], 0, false, false⟩

/-- Replace the state of channel `cid`. -/
def setChan (cid : Nat) (c : ChanSt) (st : St) : St :=
  { st with chans := st.chans.set cid c }

/-- `make(chan func())`: allocate a fresh open channel. -/
def newChan (st : St) : Nat × St :=
  (st.chans.length, { st with chans := st.chans ++ [⟨[], false⟩] })

/-- A send on channel `cid`: panics if the channel is closed, otherwise the
sender joins the FIFO of blocked senders. -/
def sendChan (cid : Nat) (p : Option CleanupA) (st : St) : St :=
  match st.chans.get? cid with
  | none => { st with blocked := true }
  | some c =>
    let st2 := { st with sends := st.sends + 1 }
    if c.closed then { st2 with panicked := true }
    else setChan cid { c with pending := c.pending ++ [p] } st2

/-- A receive on channel `cid`.  Completing a pending send lets that
sender's `defer close(out)` run, so the channel closes; if further senders
were still blocked, the close panics them (Go semantics).  A receive on a
closed empty channel yields the zero value `nil` (modelled `none`); a
receive with no sender and no close would block. -/
def recvChan (cid : Nat) (st : St) : Option CleanupA × St :=
  match st.chans.get? cid with
  | none => (none, { st with blocked := true })
  | some c =>
    match c.pending with
    | p :: rest =>
      let st2 := setChan cid ⟨rest, true⟩ st
      (p, if rest.isEmpty then st2 else { st2 with panicked := true })
    | [] =>
      if c.closed then (none, st)
      else (none, { st with blocked := true })

/-- Run a cleanup action.  Invoking the `nil` function received from a
closed channel is a Go runtime panic.  `fuel` bounds the dynamic nesting of
`recvAndRun`; all scenarios below stay far below it. -/
def runCleanup : Nat → CleanupA → St → St
  | 0, _, st => st
  | _ + 1, CleanupA.noop, st => st
  | _ + 1, CleanupA.mark s, st => { st with log := st.log ++ [s] }
  | fuel + 1, CleanupA.seq a b, st => runCleanup fuel b (runCleanup fuel a st)
  | fuel + 1, CleanupA.recvAndRun cid, st =>
    let pst := recvChan cid st
    match pst.1 with
    | none => { pst.2 with panicked := true }
    | some a => runCleanup fuel a pst.2

/-- Result of one step of a future's backing generator: the produced
`futureResult` (value, error), the `ok` flag, and the value of the
closed-over `executed` flag after the step. -/
structure StepOut (T : Type) where
  val : T
  err : Option Err
  ok : Bool
  executedAfter : Bool

/-- A `Future[T]` value: the `deferFn` channel field (`none` is Go `nil`),
the current value of the closed-over `executed` flag of its generator, and
the generator's step function. -/
structure GoFuture (T : Type) where
  deferFn : Option Nat
  executed : Bool
  step : Bool → St → StepOut T × St

/-- The generator closure of `Exec` (part_001 lines 44-51):
`if ok = !executed; ok { r.Val, r.Err = fn(ctx) }; return r, ok`.
Note the source contains no assignment to `executed`, so the flag is
returned unchanged. -/
def execStep {T : Type} [Inhabited T] (fn : St → (T × Option Err) × St)
    (executed : Bool) (st : St) : StepOut T × St :=
  let ok := !executed
  if ok then
    let rst := fn st
    (⟨rst.1.1, rst.1.2, ok, executed⟩, rst.2)
  else
    (⟨default, none, ok, executed⟩, st)

/-- `async.Exec` (part_001 lines 39-53): a future with no cleanup channel
whose generator runs `fn` whenever the guard lets it through. -/
def ExecGo {T : Type} [Inhabited T] (fn : St → (T × Option Err) × St) :
    GoFuture T :=
  ⟨none, false, execStep fn⟩

/-- The generator closure of `ExecWithDefer` (part_001 lines 63-84): on a
step that runs the body, the returned cleanup (or a no-op when the body
returned `nil`) is handed to a goroutine that sends it on the `dfn` channel
and then closes the channel.  Again no assignment to `executed` exists. -/
def execWithDeferStep {T : Type} [Inhabited T] (dfnChan : Nat)
    (fn : St → (Option CleanupA × T × Option Err) × St)
    (executed : Bool) (st : St) : StepOut T × St :=
  let ok := !executed
  if !ok then
    (⟨default, none, ok, executed⟩, st)
  else
    let rst := fn st
    let payload : Option CleanupA :=
      some (match rst.1.1 with | some a => a | none => CleanupA.noop)
    (⟨rst.1.2.1, rst.1.2.2, ok, executed⟩, sendChan dfnChan payload rst.2)

/-- `async.ExecWithDefer` (part_001 lines 55-86): allocates the one-shot
cleanup channel and wires it into the future. -/
def ExecWithDeferGo {T : Type} [Inhabited T]
    (fn : St → (Option CleanupA × T × Option Err) × St) (st : St) :
    GoFuture T × St :=
  let cst := newChan st
  (⟨some cst.1, false, execWithDeferStep cst.1 fn⟩, cst.2)

/-- `Future.Await` (part_001 lines 21-37), without cancellation: receive
from the result channel (one generator step in this lazy model; a closed
channel yields the zero `futureResult`), then the deferred block: if the
`deferFn` field is non-nil, receive a function from it and invoke it —
invoking the `nil` zero value panics.  `fuel` feeds `runCleanup`. -/
def AwaitGo {T : Type} [Inhabited T] (fuel : Nat) (f : GoFuture T) (st : St) :
    (T × Option Err) × GoFuture T × St :=
  let ost := f.step f.executed st
  let res : T × Option Err :=
    if ost.1.ok then (ost.1.val, ost.1.err) else (default, none)
  let f2 : GoFuture T := { f with executed := ost.1.executedAfter }
  match f.deferFn with
  | none => (res, f2, ost.2)
  | some cid =>
    let pst := recvChan cid ost.2
    match pst.1 with
    | none => (res, f2, { pst.2 with panicked := true })
    | some a => (res, f2, runCleanup fuel a pst.2)

/-- `async.Then` (part_001 lines 88-107): saves `first.deferFn`, nils the
field on `first`, builds the composed future with `Exec` around a body that
awaits the (mutated) `first` and feeds `next`, and finally moves the saved
channel onto the composed future.  Returns the composed future and the
mutated `first`. -/
def ThenGo {T V : Type} [Inhabited T] [Inhabited V] (fuel : Nat)
    (first : GoFuture T) (next : T → St → (V × Option Err) × St) :
    GoFuture V × GoFuture T :=
  let deferFn := first.deferFn
  let first2 : GoFuture T := { first with deferFn := none }
  let body : St → (V × Option Err) × St := fun st =>
    let ast := AwaitGo fuel first2 st
    match ast.1.2 with
    | none => next ast.1.1 ast.2.2
    | some e => ((default, some e), ast.2.2)
  let future := ExecGo body
  let future := match deferFn with
    | some cid => { future with deferFn := some cid }
    | none => future
  (future, first2)

/-- `async.ThenWithDefer` (part_001 lines 109-138): like `Then` but with
`ExecWithDefer`; the body returns the combined closure
`func() { if dfn != nil { dfn() }; if deferFn != nil { dfn = <-deferFn;
dfn() } }` which would run `next`'s cleanup and then receive and run
`first`'s.  The trailing overwrite `future.deferFn = deferFn` then replaces
the channel carrying that combined closure with `first`'s own channel.
Returns ((composed future, mutated first), state). -/
def ThenWithDeferGo {T V : Type} [Inhabited T] [Inhabited V] (fuel : Nat)
    (first : GoFuture T)
    (next : T → St → (Option CleanupA × V × Option Err) × St) (st : St) :
    (GoFuture V × GoFuture T) × St :=
  let deferFn := first.deferFn
  let first2 : GoFuture T := { first with deferFn := none }
  let body : St → (Option CleanupA × V × Option Err) × St := fun st =>
    let ast := AwaitGo fuel first2 st
    let nst : (Option CleanupA × V × Option Err) × St :=
      match ast.1.2 with
      | none => next ast.1.1 ast.2.2
      | some e => ((none, default, some e), ast.2.2)
    let combined : CleanupA :=
      CleanupA.seq
        (match nst.1.1 with | some a => a | none => CleanupA.noop)
        (match deferFn with
          | some cid => CleanupA.recvAndRun cid
          | none => CleanupA.noop)
    ((some combined, nst.1.2.1, nst.1.2.2), nst.2)
  let fst2 := ExecWithDeferGo body st
  let future := match deferFn with
    | some cid => { fst2.1 with deferFn := some cid }
    | none => fst2.1
  ((future, first2), fst2.2)

/-! ### C1: the one-shot guard -/

/-- A body that records each invocation of the wrapped `fn` on the log. -/
def c1Body : St → (Nat × Option Err) × St :=
  fun st => ((0, none), { st with log := st.log ++ ["run"] })

/-- Await an `Exec` future twice and observe the log. -/
def c1Trace : St :=
  let a1 := AwaitGo 9 (ExecGo c1Body) st0
  (AwaitGo 9 a1.2.1 a1.2.2).2.2

/-- C1: the `executed` flag is never set, so the guard never trips: every
generator step of `Exec` and of `ExecWithDefer` returns the flag unchanged
and `ok = !executed`; consequently awaiting an `Exec` future twice invokes
the wrapped `fn` twice (the claim that every generator step after the first
returns without calling `fn` is false on the code). -/
theorem exec_one_shot_guard_never_set :
    (∀ (T : Type) [Inhabited T] (fn : St → (T × Option Err) × St)
        (ex : Bool) (st : St),
        (execStep fn ex st).1.executedAfter = ex
      ∧ (execStep fn ex st).1.ok = !ex)
  ∧ (∀ (T : Type) [Inhabited T] (cid : Nat)
        (fn : St → (Option CleanupA × T × Option Err) × St)
        (ex : Bool) (st : St),
        (execWithDeferStep cid fn ex st).1.executedAfter = ex
      ∧ (execWithDeferStep cid fn ex st).1.ok = !ex)
  ∧ c1Trace.log = ["run", "run"] := by
  refine ⟨?_, ?_, rfl⟩
  · intro T _ fn ex st
    cases ex <;> simp [execStep]
  · intro T _ cid fn ex st
    cases ex <;> simp [execWithDeferStep]

/-! ### C9: the cleanup-handoff channel under the broken guard -/

/-- An `ExecWithDefer` body: records its invocation and supplies the
cleanup `mark "clean"`. -/
def c9Body : St → (Option CleanupA × Nat × Option Err) × St :=
  fun st =>
    ((some (CleanupA.mark "clean"), 0, none), { st with log := st.log ++ ["run"] })

/-- Await an `ExecWithDefer` future twice and observe the state. -/
def c9Trace : St :=
  let p1 := ExecWithDeferGo c9Body st0
  let a1 := AwaitGo 9 p1.1 p1.2
  (AwaitGo 9 a1.2.1 a1.2.2).2.2

/-- C9: because `executed` is never set, the second generator step runs the
body again and attempts a second send on the cleanup-handoff channel — which
the first receive already closed — so the program panics: the channel does
not carry exactly one function, and the second `Await` panics at the send
rather than receiving the nil zero value (double `Await` is indeed unsafe,
but by a different mechanism than the claim describes). -/
theorem deferChannel_double_send :
    c9Trace.sends = 2
  ∧ c9Trace.panicked = true
  ∧ c9Trace.log = ["run", "clean", "run"] := ⟨rfl, rfl, rfl⟩

/-! ### C2: cleanup order of `ThenWithDefer` -/

/-- An `ExecWithDefer` body with cleanup `mark a` and value `0`. -/
def c2FirstBody (a : String) : St → (Option CleanupA × Nat × Option Err) × St :=
  fun st => ((some (CleanupA.mark a), 0, none), st)

/-- `first := ExecWithDefer(...)` with cleanup marker `a`. -/
def c2First (a : String) : GoFuture Nat × St :=
  ExecWithDeferGo (c2FirstBody a) st0

/-- The `next` body for `ThenWithDefer`, with cleanup marker `b` and
value `1`. -/
def c2Next (b : String) : Nat → St → (Option CleanupA × Nat × Option Err) × St :=
  fun _ st => ((some (CleanupA.mark b), 1, none), st)

/-- The composed future of C2 and the state after composition. -/
def c2Composed (a b : String) : (GoFuture Nat × GoFuture Nat) × St :=
  ThenWithDeferGo 9 (c2First a).1 (c2Next b) (c2First a).2

/-- Await the composed future once. -/
def c2Await (a b : String) : (Nat × Option Err) × GoFuture Nat × St :=
  AwaitGo 9 (c2Composed a b).1.1 (c2Composed a b).2

/-- C2: awaiting the composed `ThenWithDefer` future runs only `first`'s
cleanup (`log = [a]`, not the claimed `[b, a]`): the trailing
`future.deferFn = deferFn` overwrite makes `Await` consume `first`'s
channel directly, while the combined closure that would have run `next`'s
cleanup first is left unconsumed on the composed future's own channel
(still pending, length 1). -/
theorem thenWithDefer_runs_only_outer_cleanup (a b : String) :
    (c2Await a b).2.2.log = [a]
  ∧ (c2Await a b).1 = (1, none)
  ∧ ((c2Await a b).2.2.chans.get? 1).map (fun c => c.pending.length) = some 1
  ∧ (c2Await a b).2.2.panicked = false := ⟨rfl, rfl, rfl, rfl⟩

/-! ### C10: `Then`/`ThenWithDefer` mutate `first` -/

/-- An identity `next` body for `Then`. -/
def idNext : Nat → St → (Nat × Option Err) × St :=
  fun t st => ((t, none), st)

/-- C10: both `Then` and `ThenWithDefer` return `first` with exactly its
`deferFn` field set to nil (no other field changes); when `first` had a
cleanup channel, the composed future carries that same channel; awaiting
the mutated `first` directly executes no cleanup (the cleanup stays pending
on its channel), while awaiting the composed future consumes and runs it. -/
theorem then_clears_first_defer :
    (∀ (T V : Type) [Inhabited T] [Inhabited V] (fuel : Nat)
        (first : GoFuture T) (next : T → St → (V × Option Err) × St),
        (ThenGo fuel first next).2 = { first with deferFn := none })
  ∧ (∀ (T V : Type) [Inhabited T] [Inhabited V] (fuel : Nat)
        (first : GoFuture T)
        (next2 : T → St → (Option CleanupA × V × Option Err) × St) (st : St),
        (ThenWithDeferGo fuel first next2 st).1.2
          = { first with deferFn := none })
  ∧ (∀ (T V : Type) [Inhabited T] [Inhabited V] (fuel : Nat)
        (first : GoFuture T) (next : T → St → (V × Option Err) × St)
        (cid : Nat), first.deferFn = some cid →
        (ThenGo fuel first next).1.deferFn = some cid)
  ∧ (∀ (T V : Type) [Inhabited T] [Inhabited V] (fuel : Nat)
        (first : GoFuture T)
        (next2 : T → St → (Option CleanupA × V × Option Err) × St) (st : St)
        (cid : Nat), first.deferFn = some cid →
        (ThenWithDeferGo fuel first next2 st).1.1.deferFn = some cid)
  ∧ (∀ a : String,
        (AwaitGo 9 (ThenGo 9 (c2First a).1 idNext).2 (c2First a).2).2.2.log = []
      ∧ ((AwaitGo 9 (ThenGo 9 (c2First a).1 idNext).2 (c2First a).2).2.2.chans.get? 0).map
            (fun c => c.pending.length) = some 1)
  ∧ (∀ a : String,
        (AwaitGo 9 (ThenGo 9 (c2First a).1 idNext).1 (c2First a).2).2.2.log = [a]) := by
  refine ⟨?_, ?_, ?_, ?_, ?_, ?_⟩
  · intro T V _ _ fuel first next
    rfl
  · intro T V _ _ fuel first next2 st
    rfl
  · intro T V _ _ fuel first next cid h
    simp [ThenGo, h]
  · intro T V _ _ fuel first next2 st cid h
    simp [ThenWithDeferGo, h]
  · intro a
    exact ⟨rfl, rfl⟩
  · intro a
    rfl

/-- Witness for `then_clears_first_defer`: the hypothesis-bearing conjuncts
instantiated at a concrete `ExecWithDefer` future (its channel id is 0). -/
theorem then_clears_first_defer_witness :
    ((c2First "x").1.deferFn = some 0)
  ∧ (ThenGo 9 (c2First "x").1 idNext).1.deferFn = some 0
  ∧ (ThenWithDeferGo 9 (c2First "x").1 (c2Next "y") (c2First "x").2).1.1.deferFn
      = some 0 :=
  ⟨rfl,
   then_clears_first_defer.2.2.1 Nat Nat 9 (c2First "x").1 idNext 0 rfl,
   then_clears_first_defer.2.2.2.1 Nat Nat 9 (c2First "x").1 (c2Next "y")
     (c2First "x").2 0 rfl⟩

end GoAsync
